import Mathlib

/-!
Verification development for the IntentProof core engine
(`packages/core/src/intent.ts`, `packages/core/src/types.ts`,
`packages/core/src/verifiers/base.ts`).

The engine is embedded shallowly:

* The external world (file system, processes) is a type parameter `σ`.
  Running a command is a function `σ → Except String String × σ`
  (`.error msg` models a non-zero exit / thrown execution error carrying
  `error.message`; `.ok out` models captured stdout).  Calling a predicate
  is `σ → Except String Bool × σ` (`.error` models a thrown error).
* JavaScript regular-expression testing (the `/…/` branch of
  `checkExpectation`) is abstracted as an explicit parameter
  `rt : RegexTest`; no theorem below depends on its behaviour.
* `crypto.randomBytes` step identities are modelled by a deterministic
  fresh-id counter: only freshness/distinctness of the ids is observable.
* Timestamps and durations are dropped (wall-clock time).  The
  `VerificationResult` model keeps the `success` and `message` fields the
  claims are about.
* Emitted events, the sequence of step-status assignments and the sequence
  of check verdicts are recorded in the execution result as explicit lists
  (`events`, `transitions`, `trace`); they instrument the `emit` calls,
  the `step.status = …` assignments and the check evaluations of the
  source, in source order.
-/

namespace IntentProof

/-- JavaScript runtime values, as far as the engine inspects them:
booleans, numbers, strings and `undefined`.  Used for the `expect` field
of predicate checks (`expect?: any`). -/
inductive JSVal where
  | bool (b : Bool)
  | num (n : Int)
  | str (s : String)
  | undef
deriving Repr, DecidableEq

/-- JavaScript truthiness for the modelled values. -/
def truthy : JSVal → Bool
  | .bool b => b
  | .num n => n != 0
  | .str s => s != ""
  | .undef => false

/-- `types.ts` `VerificationResult`, restricted to the fields the claims
are about (`actual`/`expected`/`evidence`/`timestamp` dropped). -/
structure VerificationResult where
  success : Bool
  message : String
deriving Repr, DecidableEq

/-- `types.ts` `StepStatus`. -/
inductive StepStatus where
  | pending
  | running
  | completed
  | failed
  | skipped
deriving Repr, DecidableEq

/-- `types.ts` `IntentStatus`. -/
inductive IntentStatus where
  | pending
  | running
  | completed
  | failed
  | cancelled
deriving Repr, DecidableEq

/-- Outcome of running an external command: `.error msg` models a thrown
execution error (non-zero exit) with `error.message = msg`; `.ok out`
models the captured stdout (before `.trim()`). -/
abbrev CmdOutcome := Except String String

/-- Abstract JavaScript `RegExp.test`: given the pattern text (between the
slashes) and the output, decide the match.  Only the `/…/` branch of
`checkExpectation` consults it. -/
abbrev RegexTest := String → String → Bool

/-- JavaScript `String.prototype.includes`: `sub` occurs inside `s`. -/
def jsIncludes (s sub : String) : Bool :=
  decide (List.IsInfix sub.data s.data)

/-- Value of a decimal digit run, most significant first. -/
def decDigitsVal (cs : List Char) : Nat :=
  cs.foldl (fun acc c => acc * 10 + (c.toNat - '0'.toNat)) 0

/-- Value of one hexadecimal digit. -/
def hexDigitVal (c : Char) : Nat :=
  if c.isDigit then c.toNat - '0'.toNat
  else if 'a' ≤ c ∧ c ≤ 'f' then c.toNat - 'a'.toNat + 10
  else c.toNat - 'A'.toNat + 10

/-- Parse the maximal leading run of digits; `none` when the run is empty
(JS `NaN`). -/
def parseDecRun (cs : List Char) : Option Nat :=
  let ds := cs.takeWhile Char.isDigit
  if ds.isEmpty then none else some (decDigitsVal ds)

/-- Parse the maximal leading run of hexadecimal digits; `none` when the
run is empty. -/
def parseHexRun (cs : List Char) : Option Nat :=
  let ds := cs.takeWhile (fun c =>
    c.isDigit || ('a' ≤ c && c ≤ 'f') || ('A' ≤ c && c ≤ 'F'))
  if ds.isEmpty then none
  else some (ds.foldl (fun acc c => acc * 16 + hexDigitVal c) 0)

/-- JavaScript `parseInt(s)` (radix argument omitted): skip leading
whitespace, optional sign, a `0x`/`0X` prefix selects base 16, otherwise
the maximal decimal digit run; `none` models `NaN`. -/
def parseIntJS (s : String) : Option Int :=
  let cs := s.data.dropWhile Char.isWhitespace
  let signed : Int × List Char :=
    match cs with
    | '-' :: r => (-1, r)
    | '+' :: r => (1, r)
    | _ => (1, cs)
  let sgn := signed.1
  let body := signed.2
  match body with
  | '0' :: c :: r =>
    if c = 'x' ∨ c = 'X' then (parseHexRun r).map (fun n => sgn * n)
    else (parseDecRun body).map (fun n => sgn * n)
  | _ => (parseDecRun body).map (fun n => sgn * n)

/-- Leading-segment match on character lists: the first list is an
initial segment of the second. -/
def leadMatches : List Char → List Char → Bool
  | [], _ => true
  | _ :: _, [] => false
  | p :: ps, c :: cs => p == c && leadMatches ps cs

/-- JavaScript `String.prototype.startsWith`. -/
def jsStartsWith (s p : String) : Bool :=
  leadMatches p.data s.data

/-- JavaScript `String.prototype.endsWith`. -/
def jsEndsWith (s p : String) : Bool :=
  leadMatches p.data.reverse s.data.reverse

/-- `expected.match(/^[<>=]\d+$/)`: one comparator character followed by
at least one decimal digit, nothing else. -/
def isComparatorExpect (e : String) : Bool :=
  match e.data with
  | [] => false
  | c :: rest =>
    (c = '<' || c = '>' || c = '=') && !rest.isEmpty && rest.all Char.isDigit

/-- `CommandVerifier.checkExpectation` (`verifiers/base.ts`): the
expectation grammar applied to the trimmed command output, first matching
rule wins. -/
def checkExpectation (rt : RegexTest) (output expected : String) : Bool :=
  if jsStartsWith expected "/" && jsEndsWith expected "/" then
    rt (String.mk (expected.data.drop 1).dropLast) output
  else if isComparatorExpect expected then
    match parseIntJS output, parseIntJS (String.mk (expected.data.drop 1)),
        expected.data.head? with
    | none, _, _ => false
    | some _, none, _ => false
    | some _, some _, none => false
    | some a, some n, some c =>
      if c = '>' then decide (n < a)
      else if c = '<' then decide (a < n)
      else if c = '=' then a == n
      else false
  else if expected = "true" || expected = "false" then
    let expectBool := expected = "true"
    let actualBool := output = "true" || output = "1" || output = "yes"
    expectBool == actualBool
  else if expected = "exit 0" || expected = "success" then
    true
  else if jsStartsWith expected "contains:" then
    jsIncludes output (String.mk (expected.data.drop 9))
  else
    jsIncludes output expected

/-- `CommandVerifier.verify`: the command has already been run, producing
`outcome`; `expected` is the optional expectation string. -/
def CommandVerifier.verify (rt : RegexTest) (outcome : CmdOutcome)
    (expected : Option String) : VerificationResult :=
  match outcome with
  | .ok raw =>
    let output := raw.trim
    match expected with
    | none => ⟨true, "Command executed successfully"⟩
    | some e =>
      let m := checkExpectation rt output e
      ⟨m, if m then "Output matches expectation" else "Output does not match"⟩
  | .error msg =>
    if expected = some "fails" ∨ expected = some "error" then
      ⟨true, "Command failed as expected"⟩
    else
      ⟨false, "Command failed: " ++ msg⟩

/-- `FunctionVerifier.verify`: `res` is the (awaited) outcome of calling
the predicate, `.error msg` a thrown error.  `expectedArg` is the call
site's argument for `expected: any = true`: absent (`none`) or explicitly
`undefined` both trigger the JS default `true`. -/
def FunctionVerifier.verify (res : Except String Bool)
    (expectedArg : Option JSVal) : VerificationResult :=
  let expected : JSVal :=
    match expectedArg with
    | none => .bool true
    | some .undef => .bool true
    | some v => v
  match res with
  | .error msg => ⟨false, "Function threw error: " ++ msg⟩
  | .ok result =>
    let ok : Bool :=
      if expected = JSVal.undef then truthy (JSVal.bool result)
      else JSVal.bool result == expected
    ⟨ok, if ok then "Function verification passed" else "Function verification failed"⟩

/-- A check mechanism together with its expectation, as `verifyCheck`
dispatches on it: an external command (`{type: 'command'}` or a bare
command string) with a string expectation, or a predicate function with a
JS-value expectation. -/
inductive CheckFn (σ : Type) where
  | command (run : σ → CmdOutcome × σ) (expected : Option String)
  | func (call : σ → Except String Bool × σ) (expected : Option JSVal)

/-- `types.ts` `VerificationCheck` (the optional `name` field dropped —
nothing reads it). -/
structure VerificationCheck (σ : Type) where
  check : CheckFn σ
  critical : Option Bool

/-- `Intent.verifyCheck`: dispatch a `VerificationCheck` to the command or
function verifier, threading the world. -/
def verifyCheck (rt : RegexTest) (c : VerificationCheck σ) (w : σ) :
    VerificationResult × σ :=
  match c.check with
  | .command run e =>
    let o := run w
    (CommandVerifier.verify rt o.1 e, o.2)
  | .func call e =>
    let r := call w
    (FunctionVerifier.verify r.1 e, r.2)

/-- The `verify` field of a `StepDefinition`, as `verifyStep` dispatches
on it: a predicate function, a command (string or `{type: 'command'}`
object), or an unsupported shape (the "No verification defined for step"
branch). -/
inductive VerifySpec (σ : Type) where
  | func (call : σ → Except String Bool × σ) (expected : Option JSVal)
  | command (run : σ → CmdOutcome × σ) (expected : Option String)
  | unsupported

/-- The executable payload of a `StepDefinition`: the optional
side-effecting action (which may throw) and the verification. -/
structure StepDefn (σ : Type) where
  action : Option (σ → Except String Unit × σ)
  verify : VerifySpec σ

/-- `Intent.verifyStep`: dispatch a step definition's verification. -/
def verifyStep (rt : RegexTest) (d : StepDefn σ) (w : σ) :
    VerificationResult × σ :=
  match d.verify with
  | .func call e =>
    let r := call w
    (FunctionVerifier.verify r.1 e, r.2)
  | .command run e =>
    let o := run w
    (CommandVerifier.verify rt o.1 e, o.2)
  | .unsupported => (⟨false, "No verification defined for step"⟩, w)

/-- Run the optional action of a step (`if (definition.action) await
definition.action()`); absent action succeeds without touching the
world. -/
def runAction (a : Option (σ → Except String Unit × σ)) (w : σ) :
    Except String Unit × σ :=
  match a with
  | some act => act w
  | none => (.ok (), w)

/-- `types.ts` `Step` (runtime instance) together with its stored
definition (`(step as any)._definition`).  Timestamps/duration/retry
count dropped. -/
structure Step (σ : Type) where
  id : String
  name : String
  status : StepStatus
  result : Option VerificationResult
  dependencies : Option (List String)
  defn : StepDefn σ

/-- `types.ts` `IntentContract`. -/
structure IntentContract (σ : Type) where
  preconditions : Option (List (VerificationCheck σ))
  postconditions : Option (List (VerificationCheck σ))
  invariants : Option (List (VerificationCheck σ))

/-- `types.ts` `IntentOptions`, restricted to the one option `execute`
consults; `verbose`, `parallel`, `maxRetries` and `timeout` are accepted
by the source but never read by the engine. -/
structure IntentOptions where
  stopOnFailure : Bool
deriving Repr, DecidableEq

/-- The `Intent` aggregate: goal, status, insertion-ordered steps,
contract, options, plus the fresh-id counter modelling
`crypto.randomBytes` id generation (only distinctness of ids is
observable). -/
structure Intent (σ : Type) where
  goal : String
  status : IntentStatus
  steps : List (Step σ)
  contract : IntentContract σ
  options : IntentOptions
  nextId : Nat

/-- `new Intent(goal, options)`: the constructor defaults
`stopOnFailure` to `true` unless the caller's options override it. -/
def Intent.new (σ : Type) (goal : String) (stopOnFailure : Option Bool) :
    Intent σ :=
  { goal := goal
    status := .pending
    steps := []
    contract := ⟨none, none, none⟩
    options := ⟨stopOnFailure.getD true⟩
    nextId := 0 }

/-- The first argument of `requires`/`ensures`/`invariant`: a command
string (with the run behaviour of that command and the `expected`
argument), a predicate function (with its `expected` argument), or an
already-built `VerificationCheck` object. -/
inductive CheckArg (σ : Type) where
  | cmdStr (run : σ → CmdOutcome × σ) (expected : Option String)
  | fn (call : σ → Except String Bool × σ) (expected : Option JSVal)
  | obj (c : VerificationCheck σ)

/-- `Intent.requires`: normalize and append a precondition.  String and
function arguments are stored with `critical: true`. -/
def Intent.requires (it : Intent σ) (a : CheckArg σ) : Intent σ :=
  let c : VerificationCheck σ :=
    match a with
    | .cmdStr run e => ⟨.command run e, some true⟩
    | .fn call e => ⟨.func call e, some true⟩
    | .obj c => c
  { it with contract :=
      { it.contract with preconditions := some ((it.contract.preconditions.getD []) ++ [c]) } }

/-- `Intent.ensures`: normalize and append a postcondition.  String and
function arguments are stored with `critical: true`. -/
def Intent.ensures (it : Intent σ) (a : CheckArg σ) : Intent σ :=
  let c : VerificationCheck σ :=
    match a with
    | .cmdStr run e => ⟨.command run e, some true⟩
    | .fn call e => ⟨.func call e, some true⟩
    | .obj c => c
  { it with contract :=
      { it.contract with postconditions := some ((it.contract.postconditions.getD []) ++ [c]) } }

/-- `Intent.invariant`: normalize and append an invariant.  A command
string is stored with `critical: true`, but a predicate function is
stored with no `critical` field at all (the source omits it in that
branch). -/
def Intent.invariant (it : Intent σ) (a : CheckArg σ) : Intent σ :=
  let c : VerificationCheck σ :=
    match a with
    | .cmdStr run e => ⟨.command run e, some true⟩
    | .fn call e => ⟨.func call e, none⟩
    | .obj c => c
  { it with contract :=
      { it.contract with invariants := some ((it.contract.invariants.getD []) ++ [c]) } }

/-- `Intent.step`: append a fresh `pending` step holding its
definition. -/
def Intent.step (it : Intent σ) (name : String)
    (dependencies : Option (List String)) (d : StepDefn σ) : Intent σ :=
  let s : Step σ :=
    { id := toString it.nextId
      name := name
      status := .pending
      result := none
      dependencies := dependencies
      defn := d }
  { it with steps := it.steps ++ [s], nextId := it.nextId + 1 }

/-- Observable events, one constructor per `this.emit(...)` call of
`execute` (payload restricted to the non-temporal fields). -/
inductive Event where
  | start (goal : String) (steps : Nat)
  | phase (name : String)
  | stepStart (step : String)
  | stepComplete (step : String)
  | stepFailed (step : String) (reason : String)
  | stepSkipped (step : String) (reason : String)
  | stepError (step : String) (error : String)
  | failedEv (phase : String) (step : Option String) (reason : String)
  | complete (steps : Nat)
deriving Repr, DecidableEq

/-- Which phase of `execute` produced a check verdict. -/
inductive Phase where
  | pre
  | inv
  | stepv
  | post
deriving Repr, DecidableEq

/-- Ghost record of one check evaluation (or one step outcome) during
`execute`: its phase, the check's `critical` flag (`none` for step
outcomes and for checks without the flag) and the verdict. -/
structure TraceEntry where
  phase : Phase
  critical : Option Bool
  success : Bool
deriving Repr, DecidableEq

/-- Threaded execution state: the world, the `verificationLog`, plus the
ghost instrumentation (verdict trace, emitted events, step-status
assignments as `(id, old, new)`). -/
structure ExecState (σ : Type) where
  world : σ
  log : List VerificationResult
  trace : List TraceEntry
  events : List Event
  transitions : List (String × StepStatus × StepStatus)

/-- The precondition/postcondition loops of `execute`: evaluate each
check in order, append its result to the log, and abort on the first
failure whose `critical !== false`; returns the aborting result, if
any. -/
def runConds (rt : RegexTest) (ph : Phase) (cs : List (VerificationCheck σ))
    (st : ExecState σ) : Option VerificationResult × ExecState σ :=
  match cs with
  | [] => (none, st)
  | c :: rest =>
    let p := verifyCheck rt c st.world
    let r := p.1
    let st' : ExecState σ :=
      { st with
        world := p.2,
        log := st.log ++ [r],
        trace := st.trace ++ [⟨ph, c.critical, r.success⟩] }
    if !r.success && !(c.critical == some false) then (some r, st')
    else runConds rt ph rest st'

/-- The invariant loops of `execute` (run before and after every
non-skipped step): evaluate each invariant in order, aborting on the
first failure regardless of its `critical` flag; invariant results are
not appended to the `verificationLog`. -/
def runInvs (rt : RegexTest) (cs : List (VerificationCheck σ))
    (st : ExecState σ) : Option VerificationResult × ExecState σ :=
  match cs with
  | [] => (none, st)
  | c :: rest =>
    let p := verifyCheck rt c st.world
    let r := p.1
    let st' : ExecState σ :=
      { st with
        world := p.2,
        trace := st.trace ++ [⟨.inv, c.critical, r.success⟩] }
    if !r.success then (some r, st')
    else runInvs rt rest st'

/-- `this.steps.get(depId)` over the current step collection. -/
def findStep (steps : List (Step σ)) (id : String) : Option (Step σ) :=
  steps.find? (fun s => s.id == id)

/-- The `unmetDeps` filter of `execute`: dependencies whose id is missing
from the collection or whose step is not `completed`. -/
def unmetDeps (all : List (Step σ)) (deps : List String) : List String :=
  deps.filter (fun depId =>
    match findStep all depId with
    | none => true
    | some d => !(d.status == .completed))

/-- Outcome of processing one step of the loop body of `execute`:
`skipped` (dependency gating), `aborted` (a return from inside the loop:
failing invariant, or step failure/error with `stopOnFailure`), or
`continued` (fall through to the next step). -/
inductive StepOutcome (σ : Type) where
  | skipped (s : Step σ) (st : ExecState σ)
  | aborted (failedStep : String) (failureReason : String) (s : Step σ)
      (st : ExecState σ)
  | continued (s : Step σ) (st : ExecState σ)

/-- The post-step invariant re-check (`// Check invariants after step`):
abort with `failedStep = "invariant after <name>"` on the first failing
invariant (the step keeps its status), otherwise continue. -/
def finishStep (rt : RegexTest) (invs : List (VerificationCheck σ))
    (s : Step σ) (st : ExecState σ) : StepOutcome σ :=
  match runInvs rt invs st with
  | (some r, st') =>
    .aborted ("invariant after " ++ s.name) r.message s
      { st' with
        events := st'.events ++ [.failedEv "invariant" (some s.name) r.message] }
  | (none, st') => .continued s st'

/-- The dependency gate of the step loop (`if (step.dependencies) { const
unmetDeps = ... if (unmetDeps.length > 0) ... }`): true when the step
declares dependencies and at least one is unmet. -/
def depsUnmet (all : List (Step σ)) (s : Step σ) : Bool :=
  match s.dependencies with
  | some deps => !(unmetDeps all deps).isEmpty
  | none => false

/-- One iteration of the step loop of `execute`: dependency gating,
pre-step invariants, status `running`, the `try` block (action, then
verification) with its `catch`, and the post-step invariants.  `all` is
the full current step collection used for dependency lookup. -/
def processStep (rt : RegexTest) (stop : Bool)
    (invs : List (VerificationCheck σ)) (all : List (Step σ)) (s : Step σ)
    (st : ExecState σ) : StepOutcome σ :=
  if depsUnmet all s then
    .skipped { s with status := .skipped }
      { st with
        events := st.events ++ [.stepSkipped s.name "unmet dependencies"],
        transitions := st.transitions ++ [(s.id, s.status, .skipped)] }
  else
    match runInvs rt invs st with
    | (some r, st₁) =>
      .aborted ("invariant before " ++ s.name) r.message
        { s with status := .failed }
        { st₁ with
          events := st₁.events ++ [.failedEv "invariant" (some s.name) r.message],
          transitions := st₁.transitions ++ [(s.id, s.status, .failed)] }
    | (none, st₁) =>
      let s₁ : Step σ := { s with status := .running }
      let st₂ : ExecState σ :=
        { st₁ with
          events := st₁.events ++ [.stepStart s.name],
          transitions := st₁.transitions ++ [(s.id, s.status, .running)] }
      match runAction s₁.defn.action st₂.world with
      | (.error msg, w₂) =>
        let s₂ : Step σ :=
          { s₁ with
            status := .failed,
            result := some ⟨false, "Step execution error: " ++ msg⟩ }
        let st₃ : ExecState σ :=
          { st₂ with
            world := w₂,
            events := st₂.events ++ [.stepError s.name msg],
            trace := st₂.trace ++ [⟨.stepv, none, false⟩],
            transitions := st₂.transitions ++ [(s.id, .running, .failed)] }
        if stop then .aborted s.name msg s₂ st₃
        else finishStep rt invs s₂ st₃
      | (.ok _, w₂) =>
        let q := verifyStep rt s₁.defn w₂
        let vr := q.1
        let s₂ : Step σ := { s₁ with result := some vr }
        let st₃ : ExecState σ :=
          { st₂ with
            world := q.2,
            log := st₂.log ++ [vr],
            trace := st₂.trace ++ [⟨.stepv, none, vr.success⟩] }
        if vr.success then
          finishStep rt invs { s₂ with status := .completed }
            { st₃ with
              events := st₃.events ++ [.stepComplete s.name],
              transitions := st₃.transitions ++ [(s.id, .running, .completed)] }
        else
          let s₃ : Step σ := { s₂ with status := .failed }
          let st₄ : ExecState σ :=
            { st₃ with
              events := st₃.events ++ [.stepFailed s.name vr.message],
              transitions := st₃.transitions ++ [(s.id, .running, .failed)] }
          if stop then .aborted s.name vr.message s₃ st₄
          else finishStep rt invs s₃ st₄

/-- Result of the whole step loop: the abort data (if a return fired from
inside the loop), the final step collection, and the final state. -/
structure StepsResult (σ : Type) where
  abort : Option (String × String)
  steps : List (Step σ)
  st : ExecState σ

/-- The step loop of `execute`: process the remaining steps in
declaration order, accumulating the already-visited steps in `done`. -/
def runSteps (rt : RegexTest) (stop : Bool)
    (invs : List (VerificationCheck σ)) (done : List (Step σ))
    (todo : List (Step σ)) (st : ExecState σ) : StepsResult σ :=
  match todo with
  | [] => ⟨none, done, st⟩
  | s :: rest =>
    match processStep rt stop invs (done ++ s :: rest) s st with
    | .skipped s' st' => runSteps rt stop invs (done ++ [s']) rest st'
    | .continued s' st' => runSteps rt stop invs (done ++ [s']) rest st'
    | .aborted fs reason s' st' => ⟨some (fs, reason), done ++ s' :: rest, st'⟩

/-- `types.ts` `IntentExecutionResult` (duration dropped), extended with
the ghost instrumentation lists and the final world. -/
structure IntentExecutionResult (σ : Type) where
  success : Bool
  status : IntentStatus
  steps : List (Step σ)
  failedStep : Option String
  failureReason : Option String
  verificationLog : List VerificationResult
  trace : List TraceEntry
  events : List Event
  transitions : List (String × StepStatus × StepStatus)
  world : σ

/-- `Intent.execute`: preconditions, step loop (with dependency gating
and invariant re-checks), postconditions, completion. -/
def Intent.execute (rt : RegexTest) (it : Intent σ) (w : σ) :
    IntentExecutionResult σ :=
  let st0 : ExecState σ :=
    ⟨w, [], [], [Event.start it.goal it.steps.length], []⟩
  let pre :=
    match it.contract.preconditions with
    | some ps =>
      runConds rt .pre ps
        { st0 with events := st0.events ++ [Event.phase "preconditions"] }
    | none => (none, st0)
  match pre with
  | (some r, st₁) =>
    { success := false
      status := .failed
      steps := it.steps
      failedStep := some "preconditions"
      failureReason := some r.message
      verificationLog := st₁.log
      trace := st₁.trace
      events := st₁.events ++ [Event.failedEv "preconditions" none r.message]
      transitions := st₁.transitions
      world := st₁.world }
  | (none, st₁) =>
    let out := runSteps rt it.options.stopOnFailure
      (it.contract.invariants.getD []) [] it.steps
      { st₁ with events := st₁.events ++ [Event.phase "execution"] }
    match out.abort with
    | some fr =>
      { success := false
        status := .failed
        steps := out.steps
        failedStep := some fr.1
        failureReason := some fr.2
        verificationLog := out.st.log
        trace := out.st.trace
        events := out.st.events
        transitions := out.st.transitions
        world := out.st.world }
    | none =>
      let post :=
        match it.contract.postconditions with
        | some qs =>
          runConds rt .post qs
            { out.st with events := out.st.events ++ [Event.phase "postconditions"] }
        | none => (none, out.st)
      match post with
      | (some r, st₂) =>
        { success := false
          status := .failed
          steps := out.steps
          failedStep := some "postconditions"
          failureReason := some r.message
          verificationLog := st₂.log
          trace := st₂.trace
          events := st₂.events ++ [Event.failedEv "postconditions" none r.message]
          transitions := st₂.transitions
          world := st₂.world }
      | (none, st₂) =>
        { success := true
          status := .completed
          steps := out.steps
          failedStep := none
          failureReason := none
          verificationLog := st₂.log
          trace := st₂.trace
          events := st₂.events ++ [Event.complete out.steps.length]
          transitions := st₂.transitions
          world := st₂.world }

/-!  Auxiliary notions used by the theorems. -/

/-- A fixed regular-expression oracle used to instantiate theorems at
concrete inputs (no theorem depends on its behaviour). -/
def rtFalse : RegexTest := fun _ _ => false

/-- A verdict that does not force `execute` to abort: it passed, or it is
a precondition/postcondition failure marked `critical: false`, or it is a
step failure while `stopOnFailure` is off.  Invariant failures are never
excused. -/
def excused (stop : Bool) (e : TraceEntry) : Bool :=
  e.success ||
    (match e.phase with
     | .pre => e.critical == some false
     | .post => e.critical == some false
     | .stepv => !stop
     | .inv => false)

/-- Position of a status in the forward order
`pending → running → terminal`. -/
def statusRank : StepStatus → Nat
  | .pending => 0
  | .running => 1
  | .completed => 2
  | .failed => 2
  | .skipped => 2

/-- The terminal statuses of a step. -/
def isTerminal : StepStatus → Bool
  | .pending => false
  | .running => false
  | .completed => true
  | .failed => true
  | .skipped => true

/-- A recorded status assignment `(id, old, new)` moves strictly forward
and never leaves a terminal status. -/
def okTransition (t : String × StepStatus × StepStatus) : Prop :=
  statusRank t.2.1 < statusRank t.2.2 ∧ isTerminal t.2.1 = false

/-- In a final step collection, every step positioned after a `failed`
step is still `pending`. -/
def haltsAfterFailure (l : List (Step σ)) : Prop :=
  ∀ i j (hi : i < l.length) (hj : j < l.length), i < j →
    (l.get ⟨i, hi⟩).status = .failed → (l.get ⟨j, hj⟩).status = .pending

/-!  Concrete fixtures over the trivial world `Unit`, used to instantiate
theorems at concrete inputs. -/

/-- A command whose execution always throws with the given message. -/
def runErr (msg : String) : Unit → CmdOutcome × Unit :=
  fun u => (Except.error msg, u)

/-- A predicate function that returns the given boolean. -/
def fnConst (b : Bool) : Unit → Except String Bool × Unit :=
  fun u => (Except.ok b, u)

/-- A step action that always throws with the given message. -/
def actThrow (msg : String) : Unit → Except String Unit × Unit :=
  fun u => (Except.error msg, u)

/-- An intent whose only contract item is a failing precondition marked
`critical: false`, and no steps. -/
def itNonCriticalPre : Intent Unit :=
  (Intent.new Unit "goal" none).requires
    (.obj ⟨.command (runErr "pre down") none, some false⟩)

/-- An intent with `stopOnFailure: false`, a first step whose verification
fails and a second step whose verification passes. -/
def itStopOff : Intent Unit :=
  ((Intent.new Unit "goal" (some false)).step "s1" none
      ⟨none, .func (fnConst false) none⟩).step "s2" none
    ⟨none, .func (fnConst true) none⟩

/-- Scenario D: two steps, the second depending on the first (id `"0"`),
the first failing its verification; default options. -/
def itScenD : Intent Unit :=
  ((Intent.new Unit "goal" none).step "s1" none
      ⟨none, .func (fnConst false) none⟩).step "s2" (some ["0"])
    ⟨none, .func (fnConst true) none⟩

/-- Scenario C: a precondition expecting `"fails"` against an erroring
command, followed by one passing step. -/
def itScenC : Intent Unit :=
  ((Intent.new Unit "goal" none).requires
      (.cmdStr (runErr "err1") (some "fails"))).step "s1" none
    ⟨none, .func (fnConst true) none⟩

/-- One step whose action throws `"boom"`; its verification (never
reached) would pass. -/
def itActionThrows : Intent Unit :=
  (Intent.new Unit "goal" none).step "s" none
    ⟨some (actThrow "boom"), .func (fnConst true) none⟩

/-- One step, no action, whose verification fails. -/
def itVerifyFails : Intent Unit :=
  (Intent.new Unit "goal" none).step "s" none
    ⟨none, .func (fnConst false) none⟩

/-- An intent with one failing invariant carrying the given `critical`
flag and one passing step. -/
def itInvFail (crit : Option Bool) : Intent Unit :=
  ((Intent.new Unit "goal" none).invariant
      (.obj ⟨.command (runErr "inv down") none, crit⟩)).step "s1" none
    ⟨none, .func (fnConst true) none⟩

/-- An empty execution state over `Unit`. -/
def st0Unit : ExecState Unit :=
  ⟨(), [], [], [], []⟩

/-- A pending step depending on the missing id `"zz"`. -/
def depStep : Step Unit :=
  ⟨"7", "s", .pending, none, some ["zz"], ⟨none, .func (fnConst true) none⟩⟩

/-- A pending step whose action throws `"boom"`. -/
def actStep : Step Unit :=
  ⟨"3", "sa", .pending, none, none, ⟨some (actThrow "boom"), .func (fnConst true) none⟩⟩

/-- The step record produced by the `catch` branch of the step loop for
an action/verification error with message `msg`. -/
def errStep (s : Step σ) (msg : String) : Step σ :=
  { s with
    status := StepStatus.failed,
    result := some ⟨false, "Step execution error: " ++ msg⟩ }

/-- The execution state produced by the `catch` branch of the step loop:
the world advanced by the throwing action, a `step:start` then
`step:error` event, a failing entry in the ghost verdict trace, and the
`pending → running → failed` status assignments; the verification log is
NOT extended. -/
def errState (st : ExecState σ) (s : Step σ) (w : σ) (msg : String) :
    ExecState σ :=
  { st with
    world := w,
    events := (st.events ++ [Event.stepStart s.name]) ++
      [Event.stepError s.name msg],
    trace := st.trace ++ [⟨Phase.stepv, none, false⟩],
    transitions := (st.transitions ++ [(s.id, s.status, StepStatus.running)]) ++
      [(s.id, StepStatus.running, StepStatus.failed)] }

/-!  Preservation lemmas for the condition/invariant runners. -/

theorem runConds_transitions (rt : RegexTest) (ph : Phase)
    (cs : List (VerificationCheck σ)) (st : ExecState σ) :
    (runConds rt ph cs st).2.transitions = st.transitions := by
  induction cs generalizing st with
  | nil => rfl
  | cons c rest ih =>
    simp only [runConds]
    split
    · rfl
    · exact ih _

theorem runInvs_transitions (rt : RegexTest)
    (cs : List (VerificationCheck σ)) (st : ExecState σ) :
    (runInvs rt cs st).2.transitions = st.transitions := by
  induction cs generalizing st with
  | nil => rfl
  | cons c rest ih =>
    simp only [runInvs]
    split
    · rfl
    · exact ih _

theorem runInvs_log (rt : RegexTest)
    (cs : List (VerificationCheck σ)) (st : ExecState σ) :
    (runInvs rt cs st).2.log = st.log := by
  induction cs generalizing st with
  | nil => rfl
  | cons c rest ih =>
    simp only [runInvs]
    split
    · rfl
    · exact ih _

/-!  Trace lemmas: whether all recorded verdicts are excused. -/

theorem runConds_none_trace (rt : RegexTest) (ph : Phase) (stop : Bool)
    (hph : ph = Phase.pre ∨ ph = Phase.post)
    (cs : List (VerificationCheck σ)) (st : ExecState σ)
    (h : (runConds rt ph cs st).1 = none) :
    (runConds rt ph cs st).2.trace.all (excused stop) =
      st.trace.all (excused stop) := by
  induction cs generalizing st with
  | nil => rfl
  | cons c rest ih =>
    simp only [runConds] at h ⊢
    split at h
    · exact absurd h (by simp)
    · rename_i hc
      rw [if_neg hc, ih _ h]
      simp only [Bool.and_eq_true, Bool.not_eq_true', not_and] at hc
      simp only [List.all_append, List.all_cons, List.all_nil, Bool.and_true]
      have he : excused stop ⟨ph, c.critical, (verifyCheck rt c st.world).1.success⟩ = true := by
        rcases Bool.eq_false_or_eq_true (verifyCheck rt c st.world).1.success with hs | hs
        · simp [excused, hs]
        · have hcrit := hc hs
          have hcrit' : (c.critical == some false) = true := by
            cases hx : (c.critical == some false) with
            | true => rfl
            | false => exact absurd hx hcrit
          rcases hph with hp | hp <;> subst hp <;> simp [excused, hs, hcrit']
      rw [he, Bool.and_true]

theorem runConds_some_trace (rt : RegexTest) (ph : Phase) (stop : Bool)
    (hph : ph = Phase.pre ∨ ph = Phase.post)
    (cs : List (VerificationCheck σ)) (st : ExecState σ) (r : VerificationResult)
    (h : (runConds rt ph cs st).1 = some r) :
    (runConds rt ph cs st).2.trace.all (excused stop) = false := by
  induction cs generalizing st with
  | nil => simp [runConds] at h
  | cons c rest ih =>
    simp only [runConds] at h ⊢
    split at h
    · rename_i hc
      rw [if_pos hc]
      simp only [Bool.and_eq_true, Bool.not_eq_true'] at hc
      simp only [List.all_append, List.all_cons, List.all_nil, Bool.and_true]
      have he : excused stop ⟨ph, c.critical, (verifyCheck rt c st.world).1.success⟩ = false := by
        rcases hph with hp | hp <;> subst hp <;>
          simp [excused, hc.1, hc.2]
      rw [he]
      simp
    · rename_i hc
      rw [if_neg hc]
      exact ih _ h

theorem runInvs_none_trace (rt : RegexTest) (stop : Bool)
    (cs : List (VerificationCheck σ)) (st : ExecState σ)
    (h : (runInvs rt cs st).1 = none) :
    (runInvs rt cs st).2.trace.all (excused stop) =
      st.trace.all (excused stop) := by
  induction cs generalizing st with
  | nil => rfl
  | cons c rest ih =>
    simp only [runInvs] at h ⊢
    split at h
    · exact absurd h (by simp)
    · rename_i hc
      rw [if_neg hc, ih _ h]
      simp only [Bool.not_eq_true'] at hc
      simp [List.all_append, excused, hc]

theorem runInvs_some_trace (rt : RegexTest) (stop : Bool)
    (cs : List (VerificationCheck σ)) (st : ExecState σ) (r : VerificationResult)
    (h : (runInvs rt cs st).1 = some r) :
    (runInvs rt cs st).2.trace.all (excused stop) = false := by
  induction cs generalizing st with
  | nil => simp [runInvs] at h
  | cons c rest ih =>
    simp only [runInvs] at h ⊢
    split at h
    · rename_i hc
      rw [if_pos hc]
      simp only [Bool.not_eq_true'] at hc
      simp [List.all_append, excused, hc]
    · rename_i hc
      rw [if_neg hc]
      exact ih _ h

/-!  Lemmas about one iteration of the step loop. -/

theorem finishStep_not_skipped (rt : RegexTest) (invs : List (VerificationCheck σ))
    (s : Step σ) (st : ExecState σ) (s' : Step σ) (st' : ExecState σ) :
    finishStep rt invs s st ≠ .skipped s' st' := by
  unfold finishStep
  rcases hI : runInvs rt invs st with ⟨o, st₁⟩
  cases o <;> simp

theorem finishStep_continued (rt : RegexTest) (invs : List (VerificationCheck σ))
    (s : Step σ) (st : ExecState σ) (s' : Step σ) (st' : ExecState σ)
    (h : finishStep rt invs s st = .continued s' st') :
    s' = s ∧ (runInvs rt invs st).1 = none ∧ st' = (runInvs rt invs st).2 := by
  unfold finishStep at h
  rcases hI : runInvs rt invs st with ⟨o, st₁⟩
  rw [hI] at h
  cases o with
  | none =>
    injection h with h1 h2
    exact ⟨h1.symm, rfl, h2.symm⟩
  | some r => cases h

theorem finishStep_aborted (rt : RegexTest) (invs : List (VerificationCheck σ))
    (s : Step σ) (st : ExecState σ) (fs reason : String) (s' : Step σ)
    (st' : ExecState σ)
    (h : finishStep rt invs s st = .aborted fs reason s' st') :
    s' = s ∧ ∃ r, (runInvs rt invs st).1 = some r ∧
      st'.trace = (runInvs rt invs st).2.trace ∧
      st'.transitions = (runInvs rt invs st).2.transitions := by
  unfold finishStep at h
  rcases hI : runInvs rt invs st with ⟨o, st₁⟩
  rw [hI] at h
  cases o with
  | none => cases h
  | some r =>
    injection h with h1 h2 h3 h4
    exact ⟨h3.symm, r, rfl, by rw [← h4], by rw [← h4]⟩


theorem processStep_skipped_facts (rt : RegexTest) (stop : Bool)
    (invs : List (VerificationCheck σ)) (all : List (Step σ)) (s : Step σ)
    (st : ExecState σ) (s' : Step σ) (st' : ExecState σ)
    (h : processStep rt stop invs all s st = .skipped s' st') :
    s' = { s with status := .skipped } ∧
      st' = { st with
        events := st.events ++ [.stepSkipped s.name "unmet dependencies"],
        transitions := st.transitions ++ [(s.id, s.status, .skipped)] } := by
  unfold processStep at h
  cases hd : depsUnmet all s with
  | true =>
    rw [if_pos hd] at h
    injection h with h1 h2
    exact ⟨h1.symm, h2.symm⟩
  | false =>
    rw [if_neg (by simp [hd])] at h
    rcases hI : runInvs rt invs st with ⟨o, st₁⟩
    rw [hI] at h
    cases o with
    | some r => cases h
    | none =>
      rcases hA : runAction s.defn.action st₁.world with ⟨res, w₂⟩
      cases res with
      | error msg =>
        cases stop with
        | true =>
          simp only [hA, if_true, if_false] at h
          cases h
        | false =>
          simp only [hA, if_true, if_false] at h
          exact absurd h (finishStep_not_skipped _ _ _ _ _ _)
      | ok u =>
        simp only [hA] at h
        cases hv : (verifyStep rt s.defn w₂).1.success with
        | true =>
          rw [if_pos hv] at h
          exact absurd h (finishStep_not_skipped _ _ _ _ _ _)
        | false =>
          rw [if_neg (by simp [hv])] at h
          cases stop with
          | true =>
            rw [if_pos rfl] at h
            cases h
          | false =>
            rw [if_neg (by simp)] at h
            exact absurd h (finishStep_not_skipped _ _ _ _ _ _)

theorem okT_pending_run (s : Step σ) (hp : s.status = .pending) :
    okTransition (s.id, s.status, StepStatus.running) := by
  simp [okTransition, hp, statusRank, isTerminal]

theorem okT_pending_fail (s : Step σ) (hp : s.status = .pending) :
    okTransition (s.id, s.status, StepStatus.failed) := by
  simp [okTransition, hp, statusRank, isTerminal]

theorem okT_pending_skip (s : Step σ) (hp : s.status = .pending) :
    okTransition (s.id, s.status, StepStatus.skipped) := by
  simp [okTransition, hp, statusRank, isTerminal]

theorem okT_run_fail (s : Step σ) :
    okTransition (s.id, StepStatus.running, StepStatus.failed) := by
  simp [okTransition, statusRank, isTerminal]

theorem okT_run_complete (s : Step σ) :
    okTransition (s.id, StepStatus.running, StepStatus.completed) := by
  simp [okTransition, statusRank, isTerminal]

theorem processStep_continued_facts (rt : RegexTest) (stop : Bool)
    (invs : List (VerificationCheck σ)) (all : List (Step σ)) (s : Step σ)
    (st : ExecState σ) (s' : Step σ) (st' : ExecState σ)
    (h : processStep rt stop invs all s st = .continued s' st') :
    st'.trace.all (excused stop) = st.trace.all (excused stop) ∧
    (s.status = .pending → (∀ t ∈ st.transitions, okTransition t) →
      ∀ t ∈ st'.transitions, okTransition t) ∧
    (stop = true → s'.status = .completed) := by
  unfold processStep at h
  cases hd : depsUnmet all s with
  | true =>
    rw [if_pos hd] at h
    cases h
  | false =>
    rw [if_neg (by simp [hd])] at h
    rcases hI : runInvs rt invs st with ⟨o, st₁⟩
    rw [hI] at h
    cases o with
    | some r => cases h
    | none =>
      have h₁trace : st₁.trace.all (excused stop) = st.trace.all (excused stop) := by
        have hh := runInvs_none_trace rt stop invs st (by rw [hI])
        rw [hI] at hh
        exact hh
      have h₁trans : st₁.transitions = st.transitions := by
        have hh := runInvs_transitions rt invs st
        rw [hI] at hh
        exact hh
      rcases hA : runAction s.defn.action st₁.world with ⟨res, w₂⟩
      cases res with
      | error msg =>
        cases stop with
        | true =>
          simp only [hA, if_true, if_false] at h
          cases h
        | false =>
          simp only [hA, if_true, if_false] at h
          obtain ⟨hs', hfin, hst'⟩ := finishStep_continued _ _ _ _ _ _ h
          refine ⟨?_, ?_, ?_⟩
          · rw [hst', runInvs_none_trace rt false invs _ hfin]
            simp [List.all_append, excused, h₁trace]
          · intro hp hok
            rw [hst', runInvs_transitions]
            simp only [h₁trans]
            intro t ht
            rcases List.mem_append.mp ht with ht | ht
            · rcases List.mem_append.mp ht with ht | ht
              · exact hok t ht
              · simp only [List.mem_singleton] at ht
                subst ht
                exact okT_pending_run s hp
            · simp only [List.mem_singleton] at ht
              subst ht
              exact okT_run_fail s
          · intro hc
            cases hc
      | ok u =>
        simp only [hA] at h
        cases hv : (verifyStep rt s.defn w₂).1.success with
        | true =>
          rw [if_pos hv] at h
          obtain ⟨hs', hfin, hst'⟩ := finishStep_continued _ _ _ _ _ _ h
          refine ⟨?_, ?_, ?_⟩
          · rw [hst', runInvs_none_trace rt stop invs _ hfin]
            simp [List.all_append, excused, h₁trace, hv]
          · intro hp hok
            rw [hst', runInvs_transitions]
            simp only [h₁trans]
            intro t ht
            rcases List.mem_append.mp ht with ht | ht
            · rcases List.mem_append.mp ht with ht | ht
              · exact hok t ht
              · simp only [List.mem_singleton] at ht
                subst ht
                exact okT_pending_run s hp
            · simp only [List.mem_singleton] at ht
              subst ht
              exact okT_run_complete s
          · intro hstop
            rw [hs']
        | false =>
          rw [if_neg (by simp [hv])] at h
          cases stop with
          | true =>
            rw [if_pos rfl] at h
            cases h
          | false =>
            rw [if_neg (by simp)] at h
            obtain ⟨hs', hfin, hst'⟩ := finishStep_continued _ _ _ _ _ _ h
            refine ⟨?_, ?_, ?_⟩
            · rw [hst', runInvs_none_trace rt false invs _ hfin]
              simp [List.all_append, excused, h₁trace, hv]
            · intro hp hok
              rw [hst', runInvs_transitions]
              simp only [h₁trans]
              intro t ht
              rcases List.mem_append.mp ht with ht | ht
              · rcases List.mem_append.mp ht with ht | ht
                · exact hok t ht
                · simp only [List.mem_singleton] at ht
                  subst ht
                  exact okT_pending_run s hp
              · simp only [List.mem_singleton] at ht
                subst ht
                exact okT_run_fail s
            · intro hc
              cases hc

theorem processStep_aborted_facts (rt : RegexTest) (stop : Bool)
    (invs : List (VerificationCheck σ)) (all : List (Step σ)) (s : Step σ)
    (st : ExecState σ) (fs reason : String) (s' : Step σ) (st' : ExecState σ)
    (h : processStep rt stop invs all s st = .aborted fs reason s' st') :
    st'.trace.all (excused stop) = false ∧
    (s.status = .pending → (∀ t ∈ st.transitions, okTransition t) →
      ∀ t ∈ st'.transitions, okTransition t) := by
  unfold processStep at h
  cases hd : depsUnmet all s with
  | true =>
    rw [if_pos hd] at h
    cases h
  | false =>
    rw [if_neg (by simp [hd])] at h
    rcases hI : runInvs rt invs st with ⟨o, st₁⟩
    rw [hI] at h
    cases o with
    | some r =>
      injection h with h1 h2 h3 h4
      have h₁trace : st₁.trace.all (excused stop) = false := by
        have hh := runInvs_some_trace rt stop invs st r (by rw [hI])
        rw [hI] at hh
        exact hh
      have h₁trans : st₁.transitions = st.transitions := by
        have hh := runInvs_transitions rt invs st
        rw [hI] at hh
        exact hh
      constructor
      · rw [← h4]
        exact h₁trace
      · intro hp hok
        rw [← h4]
        simp only [h₁trans]
        intro t ht
        rcases List.mem_append.mp ht with ht | ht
        · exact hok t ht
        · simp only [List.mem_singleton] at ht
          subst ht
          exact okT_pending_fail s hp
    | none =>
      have h₁trace : st₁.trace.all (excused stop) = st.trace.all (excused stop) := by
        have hh := runInvs_none_trace rt stop invs st (by rw [hI])
        rw [hI] at hh
        exact hh
      have h₁trans : st₁.transitions = st.transitions := by
        have hh := runInvs_transitions rt invs st
        rw [hI] at hh
        exact hh
      rcases hA : runAction s.defn.action st₁.world with ⟨res, w₂⟩
      cases res with
      | error msg =>
        cases stop with
        | true =>
          simp only [hA, if_true, if_false] at h
          injection h with h1 h2 h3 h4
          constructor
          · rw [← h4]
            simp [List.all_append, excused]
          · intro hp hok
            rw [← h4]
            simp only [h₁trans]
            intro t ht
            rcases List.mem_append.mp ht with ht | ht
            · rcases List.mem_append.mp ht with ht | ht
              · exact hok t ht
              · simp only [List.mem_singleton] at ht
                subst ht
                exact okT_pending_run s hp
            · simp only [List.mem_singleton] at ht
              subst ht
              exact okT_run_fail s
        | false =>
          simp only [hA, if_true, if_false] at h
          obtain ⟨hs', r, hfin, htr, htrans⟩ := finishStep_aborted _ _ _ _ _ _ _ _ h
          constructor
          · rw [htr]
            exact runInvs_some_trace rt false invs _ r hfin
          · intro hp hok
            rw [htrans, runInvs_transitions]
            simp only [h₁trans]
            intro t ht
            rcases List.mem_append.mp ht with ht | ht
            · rcases List.mem_append.mp ht with ht | ht
              · exact hok t ht
              · simp only [List.mem_singleton] at ht
                subst ht
                exact okT_pending_run s hp
            · simp only [List.mem_singleton] at ht
              subst ht
              exact okT_run_fail s
      | ok u =>
        simp only [hA] at h
        cases hv : (verifyStep rt s.defn w₂).1.success with
        | true =>
          rw [if_pos hv] at h
          obtain ⟨hs', r, hfin, htr, htrans⟩ := finishStep_aborted _ _ _ _ _ _ _ _ h
          constructor
          · rw [htr]
            exact runInvs_some_trace rt stop invs _ r hfin
          · intro hp hok
            rw [htrans, runInvs_transitions]
            simp only [h₁trans]
            intro t ht
            rcases List.mem_append.mp ht with ht | ht
            · rcases List.mem_append.mp ht with ht | ht
              · exact hok t ht
              · simp only [List.mem_singleton] at ht
                subst ht
                exact okT_pending_run s hp
            · simp only [List.mem_singleton] at ht
              subst ht
              exact okT_run_complete s
        | false =>
          rw [if_neg (by simp [hv])] at h
          cases stop with
          | true =>
            rw [if_pos rfl] at h
            injection h with h1 h2 h3 h4
            constructor
            · rw [← h4]
              simp [List.all_append, excused, hv]
            · intro hp hok
              rw [← h4]
              simp only [h₁trans]
              intro t ht
              rcases List.mem_append.mp ht with ht | ht
              · rcases List.mem_append.mp ht with ht | ht
                · exact hok t ht
                · simp only [List.mem_singleton] at ht
                  subst ht
                  exact okT_pending_run s hp
              · simp only [List.mem_singleton] at ht
                subst ht
                exact okT_run_fail s
          | false =>
            rw [if_neg (by simp)] at h
            obtain ⟨hs', r, hfin, htr, htrans⟩ := finishStep_aborted _ _ _ _ _ _ _ _ h
            constructor
            · rw [htr]
              exact runInvs_some_trace rt false invs _ r hfin
            · intro hp hok
              rw [htrans, runInvs_transitions]
              simp only [h₁trans]
              intro t ht
              rcases List.mem_append.mp ht with ht | ht
              · rcases List.mem_append.mp ht with ht | ht
                · exact hok t ht
                · simp only [List.mem_singleton] at ht
                  subst ht
                  exact okT_pending_run s hp
              · simp only [List.mem_singleton] at ht
                subst ht
                exact okT_run_fail s

theorem hAF_of_no_failed (l : List (Step σ))
    (h : ∀ x ∈ l, x.status ≠ StepStatus.failed) : haltsAfterFailure l := by
  intro i j hi hj hij hfail
  exact absurd hfail (h _ (List.get_mem l i hi))

theorem hAF_append (done : List (Step σ)) (s' : Step σ) (rest : List (Step σ))
    (hdone : ∀ x ∈ done, x.status ≠ StepStatus.failed)
    (hrest : ∀ x ∈ rest, x.status = StepStatus.pending) :
    haltsAfterFailure (done ++ s' :: rest) := by
  intro i j hi hj hij hfail
  rcases lt_trichotomy i done.length with hin | hin | hin
  · exfalso
    have hgi : (done ++ s' :: rest).get ⟨i, hi⟩ = done.get ⟨i, hin⟩ := by
      simp [List.get_eq_getElem, List.getElem_append_left hin]
    rw [hgi] at hfail
    exact hdone _ (List.get_mem done i hin) hfail
  · have hjgt : done.length < j := by omega
    have hle : done.length ≤ j := le_of_lt hjgt
    have hj2 : j - done.length < (s' :: rest).length := by
      simp only [List.length_append, List.length_cons] at hj
      simp only [List.length_cons]
      omega
    have hgj : (done ++ s' :: rest).get ⟨j, hj⟩ =
        (s' :: rest).get ⟨j - done.length, hj2⟩ := by
      simp [List.get_eq_getElem, List.getElem_append_right hle]
    rw [hgj]
    have hpos : 0 < j - done.length := by omega
    rcases Nat.exists_eq_add_of_lt hpos with ⟨k, hk⟩
    have hk' : j - done.length = k + 1 := by omega
    have hk2 : k < rest.length := by
      simp only [List.length_cons] at hj2
      omega
    simp only [List.get_eq_getElem, hk', List.getElem_cons_succ]
    exact hrest _ (List.getElem_mem hk2)
  · exfalso
    have hle : done.length ≤ i := le_of_lt hin
    have hi2 : i - done.length < (s' :: rest).length := by
      simp only [List.length_append, List.length_cons] at hi
      simp only [List.length_cons]
      omega
    have hgi : (done ++ s' :: rest).get ⟨i, hi⟩ =
        (s' :: rest).get ⟨i - done.length, hi2⟩ := by
      simp [List.get_eq_getElem, List.getElem_append_right hle]
    rw [hgi] at hfail
    have hpos : 0 < i - done.length := by omega
    rcases Nat.exists_eq_add_of_lt hpos with ⟨k, hk⟩
    have hk' : i - done.length = k + 1 := by omega
    have hk2 : k < rest.length := by
      simp only [List.length_cons] at hi2
      omega
    simp only [List.get_eq_getElem, hk', List.getElem_cons_succ] at hfail
    rw [hrest _ (List.getElem_mem hk2)] at hfail
    cases hfail

theorem runSteps_trace (rt : RegexTest) (stop : Bool)
    (invs : List (VerificationCheck σ)) (todo done : List (Step σ))
    (st : ExecState σ) :
    ((runSteps rt stop invs done todo st).abort = none →
      (runSteps rt stop invs done todo st).st.trace.all (excused stop) =
        st.trace.all (excused stop)) ∧
    ((runSteps rt stop invs done todo st).abort.isSome = true →
      (runSteps rt stop invs done todo st).st.trace.all (excused stop) = false) := by
  induction todo generalizing done st with
  | nil =>
    constructor
    · intro _
      rfl
    · intro h
      simp [runSteps] at h
  | cons s rest ih =>
    rcases hP : processStep rt stop invs (done ++ s :: rest) s st with
      ⟨s', st'⟩ | ⟨fs, rsn, s', st'⟩ | ⟨s', st'⟩
    · obtain ⟨hs', hst'⟩ := processStep_skipped_facts _ _ _ _ _ _ _ _ hP
      simp only [runSteps, hP]
      have htr : st'.trace = st.trace := by rw [hst']
      constructor
      · intro h
        rw [(ih (done ++ [s']) st').1 h, htr]
      · intro h
        exact (ih (done ++ [s']) st').2 h
    · obtain ⟨htr, _⟩ := processStep_aborted_facts _ _ _ _ _ _ _ _ _ _ hP
      simp only [runSteps, hP]
      constructor
      · intro h
        cases h
      · intro _
        exact htr
    · obtain ⟨htr, _, _⟩ := processStep_continued_facts _ _ _ _ _ _ _ _ hP
      simp only [runSteps, hP]
      constructor
      · intro h
        rw [(ih (done ++ [s']) st').1 h, htr]
      · intro h
        exact (ih (done ++ [s']) st').2 h

theorem runSteps_transitions_ok (rt : RegexTest) (stop : Bool)
    (invs : List (VerificationCheck σ)) (todo done : List (Step σ))
    (st : ExecState σ)
    (hpend : ∀ x ∈ todo, x.status = StepStatus.pending)
    (hok : ∀ t ∈ st.transitions, okTransition t) :
    ∀ t ∈ (runSteps rt stop invs done todo st).st.transitions, okTransition t := by
  induction todo generalizing done st with
  | nil => exact hok
  | cons s rest ih =>
    have hsp : s.status = StepStatus.pending := hpend s (by simp)
    have hrest : ∀ x ∈ rest, x.status = StepStatus.pending := by
      intro x hx
      exact hpend x (by simp [hx])
    rcases hP : processStep rt stop invs (done ++ s :: rest) s st with
      ⟨s', st'⟩ | ⟨fs, rsn, s', st'⟩ | ⟨s', st'⟩
    · obtain ⟨hs', hst'⟩ := processStep_skipped_facts _ _ _ _ _ _ _ _ hP
      simp only [runSteps, hP]
      refine ih (done ++ [s']) st' hrest ?_
      rw [hst']
      intro t ht
      rcases List.mem_append.mp ht with ht | ht
      · exact hok t ht
      · simp only [List.mem_singleton] at ht
        subst ht
        exact okT_pending_skip s hsp
    · obtain ⟨_, htrans⟩ := processStep_aborted_facts _ _ _ _ _ _ _ _ _ _ hP
      simp only [runSteps, hP]
      exact htrans hsp hok
    · obtain ⟨_, htrans, _⟩ := processStep_continued_facts _ _ _ _ _ _ _ _ hP
      simp only [runSteps, hP]
      exact ih (done ++ [s']) st' hrest (htrans hsp hok)

theorem runSteps_halts (rt : RegexTest) (invs : List (VerificationCheck σ))
    (todo done : List (Step σ)) (st : ExecState σ)
    (hpend : ∀ x ∈ todo, x.status = StepStatus.pending)
    (hdone : ∀ x ∈ done, x.status ≠ StepStatus.failed) :
    haltsAfterFailure (runSteps rt true invs done todo st).steps := by
  induction todo generalizing done st with
  | nil => exact hAF_of_no_failed done hdone
  | cons s rest ih =>
    have hsp : s.status = StepStatus.pending := hpend s (by simp)
    have hrest : ∀ x ∈ rest, x.status = StepStatus.pending := by
      intro x hx
      exact hpend x (by simp [hx])
    rcases hP : processStep rt true invs (done ++ s :: rest) s st with
      ⟨s', st'⟩ | ⟨fs, rsn, s', st'⟩ | ⟨s', st'⟩
    · obtain ⟨hs', hst'⟩ := processStep_skipped_facts _ _ _ _ _ _ _ _ hP
      simp only [runSteps, hP]
      refine ih (done ++ [s']) st' hrest ?_
      intro x hx
      rcases List.mem_append.mp hx with hx | hx
      · exact hdone x hx
      · simp only [List.mem_singleton] at hx
        subst hx
        rw [hs']
        intro hcontra
        cases hcontra
    · simp only [runSteps, hP]
      exact hAF_append done s' rest hdone hrest
    · obtain ⟨_, _, hcomp⟩ := processStep_continued_facts _ _ _ _ _ _ _ _ hP
      simp only [runSteps, hP]
      refine ih (done ++ [s']) st' hrest ?_
      intro x hx
      rcases List.mem_append.mp hx with hx | hx
      · exact hdone x hx
      · simp only [List.mem_singleton] at hx
        subst hx
        rw [hcomp rfl]
        intro hcontra
        cases hcontra

/-- C1 (amended): `execute()` returns `success = true` iff every verdict
it recorded was excused: passing, or a precondition/postcondition failure
marked `critical: false`, or a step failure/error while `stopOnFailure`
is off; invariant failures are never excused.  In particular a caller
never observes `success = true` when a check whose failure aborts the run
failed. -/
theorem C1_amended_success_iff_excused (rt : RegexTest) (it : Intent σ) (w : σ) :
    (Intent.execute rt it w).success = true ↔
      (Intent.execute rt it w).trace.all (excused it.options.stopOnFailure) = true := by
  cases hps : it.contract.preconditions with
  | some ps =>
    unfold Intent.execute
    rw [hps]
    dsimp only
    split
    next r st₁ heq =>
      have hfalse := runConds_some_trace rt Phase.pre it.options.stopOnFailure
        (Or.inl rfl) ps _ r (by rw [heq])
      rw [heq] at hfalse
      dsimp only at hfalse ⊢
      simp [hfalse]
    next st₁ heq =>
      have htrue := runConds_none_trace rt Phase.pre it.options.stopOnFailure
        (Or.inl rfl) ps _ (by rw [heq])
      rw [heq] at htrue
      have htrue' : st₁.trace.all (excused it.options.stopOnFailure) = true :=
        htrue.trans rfl
      split
      next fr hout =>
        have hfalse := (runSteps_trace rt it.options.stopOnFailure
          (it.contract.invariants.getD []) it.steps []
          { world := st₁.world, log := st₁.log, trace := st₁.trace,
            events := st₁.events ++ [Event.phase "execution"],
            transitions := st₁.transitions }).2 (by rw [hout]; rfl)
        simp [hfalse]
      next hout =>
        have hsteps := (runSteps_trace rt it.options.stopOnFailure
          (it.contract.invariants.getD []) it.steps []
          { world := st₁.world, log := st₁.log, trace := st₁.trace,
            events := st₁.events ++ [Event.phase "execution"],
            transitions := st₁.transitions }).1 hout
        rw [htrue'] at hsteps
        cases hqs : it.contract.postconditions with
        | some qs =>
          dsimp only
          split
          next r st₂ heq₂ =>
            have hfalse := runConds_some_trace rt Phase.post it.options.stopOnFailure
              (Or.inr rfl) qs _ r (by rw [heq₂])
            rw [heq₂] at hfalse
            simp [hfalse]
          next st₂ heq₂ =>
            have htrue₂ := runConds_none_trace rt Phase.post it.options.stopOnFailure
              (Or.inr rfl) qs _ (by rw [heq₂])
            rw [heq₂] at htrue₂
            dsimp only at htrue₂
            rw [hsteps] at htrue₂
            simp [htrue₂]
        | none =>
          dsimp only
          simp [hsteps]
  | none =>
    unfold Intent.execute
    rw [hps]
    dsimp only
    generalize hSA : ({ world := w, log := [], trace := [], events := [Event.start it.goal it.steps.length] ++ [Event.phase "execution"], transitions := [] } : ExecState σ) = stA
    have htA : stA.trace.all (excused it.options.stopOnFailure) = true := by
      rw [← hSA]
      rfl
    split
    next fr hout =>
      have hfalse := (runSteps_trace rt it.options.stopOnFailure
        (it.contract.invariants.getD []) it.steps [] stA).2 (by rw [hout]; rfl)
      simp [hfalse]
    next hout =>
      have hsteps := ((runSteps_trace rt it.options.stopOnFailure
        (it.contract.invariants.getD []) it.steps [] stA).1 hout).trans htA
      cases hqs : it.contract.postconditions with
      | some qs =>
        dsimp only
        split
        next r st₂ heq₂ =>
          have hfalse := runConds_some_trace rt Phase.post it.options.stopOnFailure
            (Or.inr rfl) qs _ r (by rw [heq₂])
          rw [heq₂] at hfalse
          simp [hfalse]
        next st₂ heq₂ =>
          have htrue₂ := runConds_none_trace rt Phase.post it.options.stopOnFailure
            (Or.inr rfl) qs _ (by rw [heq₂])
          rw [heq₂] at htrue₂
          dsimp only at htrue₂
          rw [hsteps] at htrue₂
          simp [htrue₂]
      | none =>
        dsimp only
        simp [hsteps]

theorem ne_failed_of_pending (l : List (Step σ))
    (h : ∀ x ∈ l, x.status = StepStatus.pending) :
    ∀ x ∈ l, x.status ≠ StepStatus.failed := by
  intro x hx hf
  rw [h x hx] at hf
  cases hf

/-- C3: with `stopOnFailure = true` (the default), the first step that
fails halts execution: in the returned step list, every step positioned
after a `failed` step still has status `pending` (so it never left
`pending`, and in particular was not marked `skipped`). -/
theorem C3_first_failure_halts (rt : RegexTest) (it : Intent σ) (w : σ)
    (hstop : it.options.stopOnFailure = true)
    (hpend : ∀ x ∈ it.steps, x.status = StepStatus.pending) :
    haltsAfterFailure (Intent.execute rt it w).steps := by
  have hnil : ∀ x ∈ ([] : List (Step σ)), x.status ≠ StepStatus.failed := by
    intro x hx
    cases hx
  cases hps : it.contract.preconditions with
  | some ps =>
    unfold Intent.execute
    rw [hps]
    dsimp only
    split
    next r st₁ heq =>
      exact hAF_of_no_failed it.steps (ne_failed_of_pending it.steps hpend)
    next st₁ heq =>
      rw [hstop]
      split
      next fr hout =>
        exact runSteps_halts rt (it.contract.invariants.getD []) it.steps [] _ hpend hnil
      next hout =>
        cases hqs : it.contract.postconditions with
        | some qs =>
          dsimp only
          split
          next r st₂ heq₂ =>
            exact runSteps_halts rt (it.contract.invariants.getD []) it.steps [] _ hpend hnil
          next st₂ heq₂ =>
            exact runSteps_halts rt (it.contract.invariants.getD []) it.steps [] _ hpend hnil
        | none =>
          dsimp only
          exact runSteps_halts rt (it.contract.invariants.getD []) it.steps [] _ hpend hnil
  | none =>
    unfold Intent.execute
    rw [hps]
    dsimp only
    rw [hstop]
    split
    next fr hout =>
      exact runSteps_halts rt (it.contract.invariants.getD []) it.steps [] _ hpend hnil
    next hout =>
      cases hqs : it.contract.postconditions with
      | some qs =>
        dsimp only
        split
        next r st₂ heq₂ =>
          exact runSteps_halts rt (it.contract.invariants.getD []) it.steps [] _ hpend hnil
        next st₂ heq₂ =>
          exact runSteps_halts rt (it.contract.invariants.getD []) it.steps [] _ hpend hnil
      | none =>
        dsimp only
        exact runSteps_halts rt (it.contract.invariants.getD []) it.steps [] _ hpend hnil

/-- C9: within one `execute()` pass every recorded step-status
assignment `(id, old, new)` moves strictly forward through
`pending → running → (completed | failed | skipped)` and never starts
from a terminal status: no step is reassigned an earlier status and no
step leaves a terminal status. -/
theorem C9_transitions_forward (rt : RegexTest) (it : Intent σ) (w : σ)
    (hpend : ∀ x ∈ it.steps, x.status = StepStatus.pending) :
    ∀ t ∈ (Intent.execute rt it w).transitions, okTransition t := by
  cases hps : it.contract.preconditions with
  | some ps =>
    unfold Intent.execute
    rw [hps]
    dsimp only
    split
    next r st₁ heq =>
      have h1 := runConds_transitions rt Phase.pre ps
        ({ world := w, log := [], trace := [], events := [Event.start it.goal it.steps.length] ++ [Event.phase "preconditions"], transitions := [] } : ExecState σ)
      rw [heq] at h1
      intro t ht
      dsimp only at ht
      rw [h1] at ht
      cases ht
    next st₁ heq =>
      have h1 := runConds_transitions rt Phase.pre ps
        ({ world := w, log := [], trace := [], events := [Event.start it.goal it.steps.length] ++ [Event.phase "preconditions"], transitions := [] } : ExecState σ)
      rw [heq] at h1
      have hbase : ∀ t ∈ ({ world := st₁.world, log := st₁.log, trace := st₁.trace, events := st₁.events ++ [Event.phase "execution"], transitions := st₁.transitions } : ExecState σ).transitions, okTransition t := by
        intro t ht
        dsimp only at ht
        rw [h1] at ht
        cases ht
      have hrun := runSteps_transitions_ok rt it.options.stopOnFailure
        (it.contract.invariants.getD []) it.steps []
        { world := st₁.world, log := st₁.log, trace := st₁.trace, events := st₁.events ++ [Event.phase "execution"], transitions := st₁.transitions }
        hpend hbase
      split
      next fr hout =>
        exact hrun
      next hout =>
        cases hqs : it.contract.postconditions with
        | some qs =>
          dsimp only
          split
          next r st₂ heq₂ =>
            have h2 := congrArg Prod.snd heq₂
            dsimp only at h2
            intro t ht
            dsimp only at ht
            rw [← h2, runConds_transitions] at ht
            exact hrun t ht
          next st₂ heq₂ =>
            have h2 := congrArg Prod.snd heq₂
            dsimp only at h2
            intro t ht
            dsimp only at ht
            rw [← h2, runConds_transitions] at ht
            exact hrun t ht
        | none =>
          dsimp only
          exact hrun
  | none =>
    unfold Intent.execute
    rw [hps]
    dsimp only
    have hbase : ∀ t ∈ ({ world := w, log := [], trace := [], events := [Event.start it.goal it.steps.length] ++ [Event.phase "execution"], transitions := [] } : ExecState σ).transitions, okTransition t := by
      intro t ht
      cases ht
    have hrun := runSteps_transitions_ok rt it.options.stopOnFailure
      (it.contract.invariants.getD []) it.steps []
      { world := w, log := [], trace := [], events := [Event.start it.goal it.steps.length] ++ [Event.phase "execution"], transitions := [] }
      hpend hbase
    split
    next fr hout =>
      exact hrun
    next hout =>
      cases hqs : it.contract.postconditions with
      | some qs =>
        dsimp only
        split
        next r st₂ heq₂ =>
          have h2 := congrArg Prod.snd heq₂
          dsimp only at h2
          intro t ht
          dsimp only at ht
          rw [← h2, runConds_transitions] at ht
          exact hrun t ht
        next st₂ heq₂ =>
          have h2 := congrArg Prod.snd heq₂
          dsimp only at h2
          intro t ht
          dsimp only at ht
          rw [← h2, runConds_transitions] at ht
          exact hrun t ht
      | none =>
        dsimp only
        exact hrun

/-- C1 (counterexample): the claim's iff fails as stated.  For the
concrete intent whose only contract item is a failing precondition marked
`critical: false`, `execute()` returns `success = true` although the one
precondition evaluated produced a failing verdict (visible both in the
verdict trace and in the verification log). -/
theorem C1_counterexample :
    (Intent.execute rtFalse itNonCriticalPre ()).success = true ∧
    (Intent.execute rtFalse itNonCriticalPre ()).trace.map TraceEntry.success =
      [false] ∧
    (Intent.execute rtFalse itNonCriticalPre ()).verificationLog.map
      VerificationResult.success = [false] := by
  refine ⟨rfl, rfl, rfl⟩

/-- C2 (code bug, evaluation at the failing input): with
`stopOnFailure: false`, a first step whose verification fails and a
second that passes, both steps are attempted (statuses
`[failed, completed]`) — but `execute()` returns `success = true` and
status `completed`, although the step verification log records the
failure; the spec requires `success = false` whenever a step failed. -/
theorem C2_failing_input_eval :
    (Intent.execute rtFalse itStopOff ()).steps.map Step.status =
      [StepStatus.failed, StepStatus.completed] ∧
    (Intent.execute rtFalse itStopOff ()).success = true ∧
    (Intent.execute rtFalse itStopOff ()).status = IntentStatus.completed ∧
    (Intent.execute rtFalse itStopOff ()).verificationLog.map
      VerificationResult.success = [false, true] := by
  refine ⟨rfl, rfl, rfl, rfl⟩

theorem C3_witness :
    itScenD.options.stopOnFailure = true ∧
    (Intent.execute rtFalse itScenD ()).steps.map Step.status =
      [StepStatus.failed, StepStatus.pending] ∧
    haltsAfterFailure (Intent.execute rtFalse itScenD ()).steps :=
  ⟨rfl, rfl, C3_first_failure_halts rtFalse itScenD () rfl (by decide)⟩

theorem C9_witness :
    okTransition ("0", StepStatus.pending, StepStatus.running) :=
  C9_transitions_forward rtFalse itActionThrows () (by decide)
    ("0", StepStatus.pending, StepStatus.running) (by decide)

/-- C10: invariant failures abort the run regardless of the `critical`
flag — for every value of `critical` on a failing invariant, `execute()`
aborts before the first step with `failedStep = "invariant before s1"`
(so `critical: false` does not downgrade the failure, unlike
preconditions/postconditions, cf. the non-critical precondition of
`itNonCriticalPre` which does not abort); and `Intent.invariant` stores a
predicate-function invariant with no `critical` flag at all. -/
theorem C10_invariant_ignores_critical :
    (∀ (σ : Type) (it : Intent σ) (call : σ → Except String Bool × σ)
        (e : Option JSVal),
      (Intent.invariant it (CheckArg.fn call e)).contract.invariants =
        some ((it.contract.invariants.getD []) ++ [⟨CheckFn.func call e, none⟩])) ∧
    (∀ crit : Option Bool,
      (Intent.execute rtFalse (itInvFail crit) ()).success = false ∧
      (Intent.execute rtFalse (itInvFail crit) ()).failedStep =
        some "invariant before s1" ∧
      (Intent.execute rtFalse (itInvFail crit) ()).failureReason =
        some "Command failed: inv down" ∧
      (Intent.execute rtFalse (itInvFail crit) ()).steps.map Step.status =
        [StepStatus.failed]) ∧
    (Intent.execute rtFalse itNonCriticalPre ()).success = true := by
  refine ⟨fun σ it call e => rfl, ?_, rfl⟩
  intro crit
  rcases crit with _ | b
  · exact ⟨rfl, rfl, rfl, rfl⟩
  · cases b
    · exact ⟨rfl, rfl, rfl, rfl⟩
    · exact ⟨rfl, rfl, rfl, rfl⟩

/-- C4: when a command's execution throws, the Command backend reports
success exactly when the expected value is the sentinel `"fails"` or
`"error"`; for any other expected value (including none) it reports a
failure whose message carries the underlying execution error.
Consequently (scenario C) a precondition expecting `"fails"` against an
erroring command passes — its log entry is a success — and execution
proceeds to the step phase. -/
theorem C4_command_error_sentinels (rt : RegexTest) (msg : String)
    (expected : Option String) :
    ((CommandVerifier.verify rt (Except.error msg) expected).success = true ↔
      (expected = some "fails" ∨ expected = some "error")) ∧
    (¬(expected = some "fails" ∨ expected = some "error") →
      (CommandVerifier.verify rt (Except.error msg) expected).message =
        "Command failed: " ++ msg) ∧
    ((Intent.execute rtFalse itScenC ()).verificationLog.map
        VerificationResult.success = [true, true] ∧
      Event.phase "execution" ∈ (Intent.execute rtFalse itScenC ()).events ∧
      (Intent.execute rtFalse itScenC ()).success = true) := by
  refine ⟨?_, ?_, by decide, by decide, rfl⟩
  · unfold CommandVerifier.verify
    dsimp only
    split
    next hc => simp [hc]
    next hc => simp [hc]
  · intro hn
    unfold CommandVerifier.verify
    dsimp only
    rw [if_neg hn]

theorem C4_witness :
    ¬((some "x" : Option String) = some "fails" ∨
        (some "x" : Option String) = some "error") ∧
    (CommandVerifier.verify rtFalse (Except.error "boom") (some "x")).message =
      "Command failed: " ++ "boom" :=
  ⟨by decide, (C4_command_error_sentinels rtFalse "boom" (some "x")).2.1 (by decide)⟩

/-- C5: a step reached with a declared dependency that is missing from
the step collection or not `completed` is marked `skipped`, and the loop
moves on having only emitted the `step:skipped` event and recorded the
status assignment: the world, the verification log and the verdict trace
are untouched — its action and verification are never invoked. -/
theorem C5_unmet_dependency_skips (rt : RegexTest) (stop : Bool)
    (invs : List (VerificationCheck σ)) (done : List (Step σ)) (s : Step σ)
    (rest : List (Step σ)) (st : ExecState σ) (deps : List String)
    (hdeps : s.dependencies = some deps)
    (hunmet : unmetDeps (done ++ s :: rest) deps ≠ []) :
    runSteps rt stop invs done (s :: rest) st =
      runSteps rt stop invs (done ++ [{ s with status := StepStatus.skipped }]) rest
        { st with
          events := st.events ++ [Event.stepSkipped s.name "unmet dependencies"],
          transitions := st.transitions ++ [(s.id, s.status, StepStatus.skipped)] } := by
  have hd : depsUnmet (done ++ s :: rest) s = true := by
    unfold depsUnmet
    rw [hdeps]
    dsimp only
    rcases hq : unmetDeps (done ++ s :: rest) deps with _ | ⟨a, l⟩
    · exact absurd hq hunmet
    · rfl
  have hP : processStep rt stop invs (done ++ s :: rest) s st =
      StepOutcome.skipped { s with status := StepStatus.skipped }
        { st with
          events := st.events ++ [Event.stepSkipped s.name "unmet dependencies"],
          transitions := st.transitions ++ [(s.id, s.status, StepStatus.skipped)] } := by
    unfold processStep
    rw [if_pos hd]
  simp only [runSteps, hP]

theorem C5_witness :
    runSteps rtFalse true [] [] [depStep] st0Unit =
      runSteps rtFalse true [] [{ depStep with status := StepStatus.skipped }] []
        { st0Unit with
          events := st0Unit.events ++
            [Event.stepSkipped depStep.name "unmet dependencies"],
          transitions := st0Unit.transitions ++
            [(depStep.id, depStep.status, StepStatus.skipped)] } :=
  C5_unmet_dependency_skips rtFalse true [] [] depStep [] st0Unit ["zz"] rfl (by decide)

/-- C6 (counterexample): an uncaught action error is NOT treated
observably identically to an ordinary verification failure.  Both runs
mark the step `failed`, but the error run emits `step:error` (and no
`step:failed`), leaves the verification log empty, and reports the raw
error message as the failure reason, while the ordinary failure run
emits `step:failed` and appends the result to the log. -/
theorem C6_counterexample :
    (Intent.execute rtFalse itActionThrows ()).steps.map Step.status =
      [StepStatus.failed] ∧
    (Intent.execute rtFalse itVerifyFails ()).steps.map Step.status =
      [StepStatus.failed] ∧
    (Intent.execute rtFalse itActionThrows ()).events ≠
      (Intent.execute rtFalse itVerifyFails ()).events ∧
    Event.stepError "s" "boom" ∈ (Intent.execute rtFalse itActionThrows ()).events ∧
    Event.stepFailed "s" "boom" ∉ (Intent.execute rtFalse itActionThrows ()).events ∧
    (Intent.execute rtFalse itActionThrows ()).events =
      [Event.start "goal" 1, Event.phase "execution", Event.stepStart "s",
        Event.stepError "s" "boom"] ∧
    (Intent.execute rtFalse itActionThrows ()).verificationLog = [] ∧
    (Intent.execute rtFalse itVerifyFails ()).verificationLog ≠ [] ∧
    (Intent.execute rtFalse itActionThrows ()).failureReason = some "boom" ∧
    (Intent.execute rtFalse itVerifyFails ()).failureReason =
      some "Function verification failed" := by
  refine ⟨rfl, rfl, by decide, by decide, by decide, rfl, rfl, by decide, rfl, rfl⟩

/-- C6 (amended): an uncaught error thrown by a step's action marks the
step `failed` with result message `Step execution error: <msg>` and
applies the same stop/continue policy as a verification failure (abort
iff `stopOnFailure`); but unlike an ordinary verification failure it
emits `step:error` instead of `step:failed`, does not append the result
to the verification log (only to the ghost verdict trace), and the
abort's `failureReason` is the raw error message. -/
theorem C6_action_error_amended (rt : RegexTest) (stop : Bool)
    (done : List (Step σ)) (s : Step σ) (rest : List (Step σ))
    (st : ExecState σ) (act : σ → Except String Unit × σ) (msg : String)
    (hdeps : s.dependencies = none) (hact : s.defn.action = some act)
    (herr : (act st.world).1 = Except.error msg) :
    runSteps rt stop [] done (s :: rest) st =
      if stop then
        ⟨some (s.name, msg), done ++ errStep s msg :: rest,
          errState st s (act st.world).2 msg⟩
      else
        runSteps rt stop [] (done ++ [errStep s msg]) rest
          (errState st s (act st.world).2 msg) := by
  have hd : depsUnmet (done ++ s :: rest) s = false := by
    unfold depsUnmet
    rw [hdeps]
  have hAW : act st.world = (Except.error msg, (act st.world).2) := by
    rcases hq : act st.world with ⟨r, w2⟩
    rw [hq] at herr
    dsimp only at herr
    rw [herr]
  have hP : processStep rt stop [] (done ++ s :: rest) s st =
      if stop then
        StepOutcome.aborted s.name msg (errStep s msg)
          (errState st s (act st.world).2 msg)
      else
        StepOutcome.continued (errStep s msg)
          (errState st s (act st.world).2 msg) := by
    unfold processStep
    rw [if_neg (by simp [hd])]
    dsimp only [runInvs]
    rw [hact]
    dsimp only [runAction]
    rw [hAW]
    dsimp only
    cases stop
    · rw [if_neg (by simp), if_neg (by simp)]
      unfold finishStep
      dsimp only [runInvs]
      rfl
    · rw [if_pos rfl, if_pos rfl]
      rfl
  simp only [runSteps, hP]
  cases stop
  · simp
  · simp

theorem C6_witness :
    (runSteps rtFalse true [] [] [actStep] st0Unit).abort = some ("sa", "boom") ∧
    (runSteps rtFalse true [] [] [actStep] st0Unit).st.log = [] ∧
    (runSteps rtFalse true [] [] [actStep] st0Unit).steps.map Step.status =
      [StepStatus.failed] := by
  rw [C6_action_error_amended rtFalse true [] actStep [] st0Unit
    (actThrow "boom") "boom" rfl rfl rfl]
  exact ⟨rfl, rfl, rfl⟩

/-- C7: the Predicate backend reports success iff either the expected
value is the default `true` (argument absent, or explicitly `undefined`)
and the returned boolean is truthy, or an explicit expected value was
given and the returned value equals it exactly under strict equality; a
thrown error is reported as a failure result carrying the error message,
never re-raised. -/
theorem C7_function_verifier (res : Except String Bool)
    (expectedArg : Option JSVal) :
    (∀ b, res = Except.ok b →
      ((FunctionVerifier.verify res expectedArg).success = true ↔
        (((expectedArg = none ∨ expectedArg = some JSVal.undef) ∧
            truthy (JSVal.bool b) = true) ∨
          (∃ v, expectedArg = some v ∧ v ≠ JSVal.undef ∧ JSVal.bool b = v)))) ∧
    (∀ msg, res = Except.error msg →
      (FunctionVerifier.verify res expectedArg).success = false ∧
      (FunctionVerifier.verify res expectedArg).message =
        "Function threw error: " ++ msg) := by
  constructor
  · intro b hb
    subst hb
    unfold FunctionVerifier.verify
    rcases expectedArg with _ | v
    · simp [truthy]
    · cases v with
      | bool c => simp [truthy]
      | num n => simp [truthy]
      | str t => simp [truthy]
      | undef => simp [truthy]
  · intro msg hm
    subst hm
    exact ⟨rfl, rfl⟩

theorem C7_witness :
    (FunctionVerifier.verify (Except.ok true) none).success = true ∧
    (FunctionVerifier.verify (Except.error "oops") none).success = false := by
  constructor
  · exact ((C7_function_verifier (Except.ok true) none).1 true rfl).mpr
      (Or.inl ⟨Or.inl rfl, rfl⟩)
  · exact ((C7_function_verifier (Except.error "oops") none).2 "oops" rfl).1

/-- C8: a comparator expectation (one of `<`, `>`, `=` followed by
digits) parses the output as an integer and compares numerically,
failing the match when the output is not parseable as an integer
(`parseInt` gives `NaN`); output `"5"` passes against `">3"`, fails
against `">10"`, and `">abc"` is not a valid comparator, so the matcher
falls through to the substring rule (which also fails here). -/
theorem C8_numeric_comparator (rt : RegexTest) (output e : String) :
    checkExpectation rt "5" ">3" = true ∧
    checkExpectation rt "5" ">10" = false ∧
    checkExpectation rt "5" ">abc" = jsIncludes "5" ">abc" ∧
    jsIncludes "5" ">abc" = false ∧
    (isComparatorExpect e = true → parseIntJS output = none →
      checkExpectation rt output e = false) := by
  refine ⟨rfl, rfl, rfl, rfl, ?_⟩
  intro hc hout
  have hc0 := hc
  unfold isComparatorExpect at hc
  rcases hdata : e.data with _ | ⟨c, ds⟩
  · rw [hdata] at hc
    cases hc
  · rw [hdata] at hc
    simp only [Bool.and_eq_true, Bool.or_eq_true, decide_eq_true_eq] at hc
    have hcc := hc.1.1
    have h1 : jsStartsWith e "/" = false := by
      show leadMatches ['/'] e.data = false
      rw [hdata]
      show (('/' == c) && leadMatches [] ds) = false
      rcases hcc with (h | h) | h <;> subst h <;> rfl
    unfold checkExpectation
    rw [if_neg (by simp [h1])]
    rw [if_pos hc0]
    rw [hout]

theorem C8_witness :
    isComparatorExpect ">3" = true ∧ parseIntJS "abc" = none ∧
    checkExpectation rtFalse "abc" ">3" = false :=
  ⟨rfl, rfl, (C8_numeric_comparator rtFalse "abc" ">3").2.2.2.2 rfl rfl⟩

end IntentProof
